import Mathlib

/-!
# Verification of the Quantbio `qemd` quantum simulation core

Shallow embedding of `qemd/simulate.py`, `qemd/metrics.py` and the constants of
`qemd/config.py`.  Python floats are modelled as exact rationals (`ℚ`); where a
claim is about IEEE non-finite values (`compute_tau_c`'s guards, the blow-up
guard of `time_evolve`) we use an explicit extended-float type `RF` or
parametrise over the float-only predicates.  Complex numbers (numpy dtype
`complex`) are modelled as pairs of rationals (`CQ`).  Fallible numpy indexing
(Python `IndexError`) is modelled with `Option`.  `np.sqrt` and
`scipy.linalg.expm`, which are irrational-valued library routines, are passed
as explicit function parameters to the definitions that use them; no claim
depends on their values.
-/

/-- A complex number with rational parts: the model of a numpy `complex` float
whose real and imaginary parts are exact. -/
structure CQ where
  re : ℚ
  im : ℚ
  deriving DecidableEq

instance : Zero CQ := ⟨⟨0, 0⟩⟩

instance : One CQ := ⟨⟨1, 0⟩⟩

instance : Add CQ := ⟨fun a b => ⟨a.re + b.re, a.im + b.im⟩⟩

instance : Neg CQ := ⟨fun a => ⟨-a.re, -a.im⟩⟩

instance : Sub CQ := ⟨fun a b => ⟨a.re - b.re, a.im - b.im⟩⟩

instance : Mul CQ := ⟨fun a b => ⟨a.re * b.re - a.im * b.im, a.re * b.im + a.im * b.re⟩⟩

/-- Complex conjugation on `CQ`. -/
def CQ.conj (a : CQ) : CQ := ⟨a.re, -a.im⟩

/-- Embedding of a real (rational) float into `CQ`, as numpy's cast to
`complex` does. -/
def ofQ (q : ℚ) : CQ := ⟨q, 0⟩

/-- A numpy 2-D array of complex entries.  The entry function is total (it is
only meaningful below `rows`/`cols`); all bounds-checked accesses go through
`matSet` / `List.get?`, which model Python's `IndexError` with `none`. -/
@[ext] structure Mat where
  rows : ℕ
  cols : ℕ
  entry : ℕ → ℕ → CQ

/-- The matrix every entry of which is `0`: `np.zeros((r, c))`. -/
def zerosM (r c : ℕ) : Mat := ⟨r, c, fun _ _ => 0⟩

/-- Embedding of `np.identity(n)`. -/
def idMat (n : ℕ) : Mat := ⟨n, n, fun i j => if i = j then 1 else 0⟩

/-- Default array value used for heap lookups that never miss. -/
def matDefault : Mat := zerosM 0 0

/-- The bounds-checked single-entry store `m[i, j] = v`; `none` models numpy's
`IndexError` on an out-of-range index. -/
def matSet (m : Mat) (i j : ℕ) (v : CQ) : Option Mat :=
  if i < m.rows ∧ j < m.cols then
    some ⟨m.rows, m.cols, fun a b => if a = i ∧ b = j then v else m.entry a b⟩
  else none

/-- Embedding of `np.diag(es)` for a real vector `es`: square matrix with `es` on the
diagonal. -/
def diagM (es : List ℚ) : Mat :=
  ⟨es.length, es.length, fun i j => if i = j then ofQ (es.getD i 0) else 0⟩

/-- Embedding of `c * m` for a scalar `c` (numpy scalar-array product). -/
def Mat.smul (c : CQ) (m : Mat) : Mat :=
  ⟨m.rows, m.cols, fun i j => c * m.entry i j⟩

/-- Embedding of `m.T`. -/
def Mat.transpose (m : Mat) : Mat := ⟨m.cols, m.rows, fun i j => m.entry j i⟩

/-- Embedding of `m.conj()`: entrywise complex conjugate. -/
def Mat.conjM (m : Mat) : Mat := ⟨m.rows, m.cols, fun i j => CQ.conj (m.entry i j)⟩

/-- Embedding of `m.conj().T`: the conjugate transpose. -/
def Mat.conjTranspose (m : Mat) : Mat :=
  ⟨m.cols, m.rows, fun i j => CQ.conj (m.entry j i)⟩

/-- Embedding of `a + b` on arrays of matching shape. -/
def Mat.add (a b : Mat) : Mat :=
  ⟨a.rows, a.cols, fun i j => a.entry i j + b.entry i j⟩

/-- Embedding of `a - b` on arrays of matching shape. -/
def Mat.sub (a b : Mat) : Mat :=
  ⟨a.rows, a.cols, fun i j => a.entry i j - b.entry i j⟩

/-- Embedding of `a @ b`: matrix multiplication (sum over the inner dimension of `a`). -/
def matMul (a b : Mat) : Mat :=
  ⟨a.rows, b.cols, fun i j =>
    (List.range a.cols).foldl (fun acc k => acc + a.entry i k * b.entry k j) 0⟩

/-- Embedding of `np.kron(a, b)`. -/
def kron (a b : Mat) : Mat :=
  ⟨a.rows * b.rows, a.cols * b.cols, fun i j =>
    a.entry (i / b.rows) (j / b.cols) * b.entry (i % b.rows) (j % b.cols)⟩

/-- Embedding of `m.flatten()`: row-major vectorization into a fresh column vector (numpy's
`flatten` always copies). -/
def Mat.flatten (m : Mat) : Mat :=
  ⟨m.rows * m.cols, 1, fun i _ => m.entry (i / m.cols) (i % m.cols)⟩

/-- Embedding of `v.reshape((n, n))` of a length-`n²` vector. -/
def Mat.reshape (v : Mat) (n : ℕ) : Mat :=
  ⟨n, n, fun i j => v.entry (i * n + j) 0⟩

/-- Embedding of `m.copy()`: a fresh array with the same entries. -/
def Mat.copy (m : Mat) : Mat := ⟨m.rows, m.cols, fun i j => m.entry i j⟩

/-- The single-site projector `|i⟩⟨i|` on `n` sites: a single `1` at `(i, i)`. -/
def projMat (n i : ℕ) : Mat :=
  ⟨n, n, fun a b => if a = i ∧ b = i then 1 else 0⟩

/-! ## Configuration constants (`qemd/config.py`) -/

/-- Constant `NUM_ETC_SITES = 7` — the 7-node ETC model. -/
def NUM_ETC_SITES : ℕ := 7

/-- Constant `SINK_INDEX = NUM_ETC_SITES - 1` — the last site of the configured model.
Note this is a module-level constant, not derived from a function argument. -/
def SINK_INDEX : ℕ := NUM_ETC_SITES - 1

/-! ## `build_hamiltonian` (`qemd/simulate.py`, lines 13–29) -/

/-- One iteration of the coupling loop of `build_hamiltonian`:
`H[i, i+1] = J[i]; H[i+1, i] = J[i]`.  Reading `J[i]` out of range raises
`IndexError`, modelled by `none`. -/
def hamStep (J : List ℚ) (H : Mat) (i : ℕ) : Option Mat := do
  let v ← J.get? i
  let H1 ← matSet H i (i + 1) (ofQ v)
  matSet H1 (i + 1) i (ofQ v)

/-- Embedding of `build_hamiltonian(epsilon, J)`: `H = np.diag(epsilon)` followed by the
nearest-neighbour coupling loop over `range(N - 1)`, then cast to complex
(our entries are already complex-valued with zero imaginary part). -/
def build_hamiltonian (epsilon J : List ℚ) : Option Mat :=
  (List.range (epsilon.length - 1)).foldlM (hamStep J) (diagM epsilon)

/-- Closed form of the matrix after the first `k` iterations of the coupling
loop of `build_hamiltonian`. -/
def hamUpTo (epsilon J : List ℚ) (k : ℕ) : Mat :=
  ⟨epsilon.length, epsilon.length, fun i j =>
    if j = i + 1 ∧ i < k then ofQ (J.getD i 0)
    else if i = j + 1 ∧ j < k then ofQ (J.getD j 0)
    else if i = j then ofQ (epsilon.getD i 0) else 0⟩

/-! ## `build_lindblad_ops` (`qemd/simulate.py`, lines 31–59)

The only irrational ingredient is `np.sqrt`, passed in as the parameter `sq`;
every claim about this builder is independent of the values `sq` takes. -/

/-- Embedding of `A = np.zeros((n, n)); A[i, i] = 1.0`: the bounds-checked construction of a
single-site projector.  Fails (`none`, numpy `IndexError`) when `i ≥ n`. -/
def projOp (n i : ℕ) : Option Mat := matSet (zerosM n n) i i 1

/-- Embedding of `build_lindblad_ops(num_sites, gamma, k_sink, k_loss)`: N dephasing
operators, then the loss operators for every site except `SINK_INDEX` (the
loop `continue`s on `i == SINK_INDEX`), then the sink operator at
`SINK_INDEX`.  Note `SINK_INDEX` is the module constant `6`, not
`num_sites - 1`. -/
def build_lindblad_ops (sq : ℚ → ℚ) (num_sites : ℕ) (gamma k_sink k_loss : ℚ) :
    Option (List Mat) := do
  let deph ← (List.range num_sites).mapM fun i => do
    let A ← projOp num_sites i
    pure (Mat.smul (ofQ (sq gamma)) A)
  let loss ← ((List.range num_sites).filter fun i => decide (i ≠ SINK_INDEX)).mapM fun i => do
    let A ← projOp num_sites i
    pure (Mat.smul (ofQ (sq k_loss)) A)
  let A_sink ← projOp num_sites SINK_INDEX
  pure (deph ++ loss ++ [Mat.smul (ofQ (sq k_sink)) A_sink])

/-! ## `time_evolve` (`qemd/simulate.py`, lines 61–98)

The evolution engine is embedded with an explicit numpy-array heap so that the
frame claim (no mutation of `rho0`) is expressible: the heap is a list of
array values, an allocation appends, and every numpy call used by
`time_evolve` that returns a fresh array (`flatten`, `copy`, `@`,
`nan_to_num`) is modelled as an allocation.  (`reshape` returns a view, but no
in-place write ever follows it in this function, so its value is also recorded
as a fresh cell.)  `scipy.linalg.expm`, `np.isfinite` and `np.nan_to_num`
operate on floats, not exact rationals, so they are taken as parameters
`expm`, `isFin`, `n2n`; the claims proved below hold for every choice of
them — in particular for choices under which the blow-up guard fires. -/

/-- The heap of allocated numpy arrays; a cell index identifies one array. -/
abbrev Heap := List Mat

/-- Allocate a fresh array: append it and return its index. -/
def alloc (h : Heap) (m : Mat) : Heap × ℕ := (h ++ [m], h.length)

/-- The length of `np.arange(start, stop, step)`: `⌈(stop - start) / step⌉`,
clamped at zero. -/
def arangeLen (start stop step : ℚ) : ℕ := (⌈(stop - start) / step⌉).toNat

/-- Embedding of `np.arange(start, stop, step)` over exact rationals. -/
def arangeQ (start stop step : ℚ) : List ℚ :=
  (List.range (arangeLen start stop step)).map fun n : ℕ => start + (n : ℚ) * step

/-- The body of the `for _ in times[1:]` loop of `time_evolve`: advance the
vectorized state by `U_dt`, apply the blow-up guard, record the reshaped
density matrix.  State: heap, current `rho_vec` cell; returns the final heap,
the final `rho_vec` cell and the cells appended to `rho_t_series`, in order. -/
def evolveLoop (U : Mat) (isFin : Mat → Bool) (n2n : Mat → Mat) (N : ℕ) :
    List ℚ → Heap → ℕ → Heap × ℕ × List ℕ
  | [], h, cur => (h, cur, [])
  | _ :: ts, h, cur =>
    let v1 := matMul U (h.getD cur matDefault)
    let p1 := alloc h v1
    let p2 := if isFin v1 then p1 else alloc p1.1 (n2n v1)
    let p3 := alloc p2.1 (Mat.reshape (p2.1.getD p2.2 matDefault) N)
    let r := evolveLoop U isFin n2n N ts p3.1 p2.2
    (r.1, r.2.1, p3.2 :: r.2.2)

/-- Embedding of `time_evolve(rho0, H, L_ops, T_end, dt)`: build the Liouvillian
`L_total = L_H + L_D`, exponentiate once, and iterate over the uniform grid
`np.arange(0, T_end + dt, dt)`.  `rho0` is passed as the heap cell `r0`.
Returns (final heap, cells of `rho_t_series`, `times`). -/
def time_evolve (expm : Mat → Mat) (isFin : Mat → Bool) (n2n : Mat → Mat)
    (h0 : Heap) (r0 : ℕ) (H : Mat) (L_ops : List Mat) (T_end dt : ℚ) :
    Heap × List ℕ × List ℚ :=
  let rho0 := h0.getD r0 matDefault
  let N := rho0.rows
  let Imat := idMat N
  let L_H := Mat.smul ⟨0, -1⟩ (Mat.sub (kron Imat H) (kron (Mat.transpose H) Imat))
  let L_D := L_ops.foldl (fun acc Lk =>
    let Lk_dag_Lk := matMul (Mat.conjTranspose Lk) Lk
    Mat.add acc (Mat.sub (kron (Mat.conjM Lk) Lk)
      (Mat.smul ⟨1/2, 0⟩ (Mat.add (kron Imat Lk_dag_Lk)
        (kron (Mat.transpose Lk_dag_Lk) Imat))))) (zerosM (N * N) (N * N))
  let L_total := Mat.add L_H L_D
  let times := arangeQ 0 (T_end + dt) dt
  let p1 := alloc h0 (Mat.flatten rho0)
  let p2 := alloc p1.1 (Mat.copy rho0)
  let U_dt := expm (Mat.smul (ofQ dt) L_total)
  let r := evolveLoop U_dt isFin n2n N times.tail p2.1 p1.2
  (r.1, p2.2 :: r.2.2, times)

/-! ## `compute_ete` (`qemd/metrics.py`, lines 4–17) -/

/-- Embedding of `np.clip(x, lo, hi)`. -/
def clipQ (x lo hi : ℚ) : ℚ := min (max x lo) hi

/-- Embedding of `compute_ete(rho_t_series, sink_index, k_sink, dt)`: accumulate
`k_sink * Re(rho[sink, sink]) * dt` over EVERY sample of the trajectory, then
clip to `[0, 1]`.  (The optional clamp of the population on line 14 of
`metrics.py` is commented out in the source.) -/
def compute_ete (rho_t_series : List Mat) (sink_index : ℕ) (k_sink dt : ℚ) : ℚ :=
  clipQ (rho_t_series.foldl
    (fun ete rho => ete + k_sink * (rho.entry sink_index sink_index).re * dt) 0) 0 1

/-- Modelled from the spec: the formula claimed in C3 — a left-Riemann sum
over the simulated window in which the sample at the final time is excluded
(hence `dropLast`).  To be compared with `compute_ete`. -/
def ete_left_riemann_spec (rho_t_series : List Mat) (sink_index : ℕ)
    (k_sink dt : ℚ) : ℚ :=
  clipQ ((rho_t_series.dropLast.map
    (fun rho => k_sink * (rho.entry sink_index sink_index).re * dt)).sum) 0 1

/-! ## `compute_tau_c` (`qemd/metrics.py`, lines 32–61)

The guards of `compute_tau_c` are about IEEE non-finite values, which exact
rationals cannot represent, so this function is embedded over an explicit
extended-float scalar type `RF` (finite rationals plus `inf`, `-inf`, `nan`)
with IEEE-754 arithmetic rules for the operations the function uses.  The
coherence array `C` (line 40 maps `coherence_measure`, a Frobenius norm whose
square root is irrational, over the trajectory) is received as an input
array, exactly as the guard logic of lines 41–61 consumes it. -/

/-- An IEEE-style float: a finite rational, an infinity, or `nan`. -/
inductive RF where
  | fin : ℚ → RF
  | inf : RF
  | ninf : RF
  | nan : RF
  deriving DecidableEq

/-- Embedding of `np.isfinite`. -/
def RF.isfinite : RF → Bool
  | fin _ => true
  | _ => false

/-- IEEE negation. -/
def RF.neg : RF → RF
  | fin q => fin (-q)
  | inf => ninf
  | ninf => inf
  | nan => nan

/-- IEEE addition. -/
def RF.add : RF → RF → RF
  | fin a, fin b => fin (a + b)
  | fin _, inf => inf
  | inf, fin _ => inf
  | inf, inf => inf
  | fin _, ninf => ninf
  | ninf, fin _ => ninf
  | ninf, ninf => ninf
  | inf, ninf => nan
  | ninf, inf => nan
  | nan, _ => nan
  | _, nan => nan

/-- IEEE subtraction. -/
def RF.sub (a b : RF) : RF := RF.add a (RF.neg b)

/-- IEEE multiplication (`0 * ±inf = nan`). -/
def RF.mul : RF → RF → RF
  | fin a, fin b => fin (a * b)
  | fin a, inf => if 0 < a then inf else if a < 0 then ninf else nan
  | inf, fin b => if 0 < b then inf else if b < 0 then ninf else nan
  | fin a, ninf => if 0 < a then ninf else if a < 0 then inf else nan
  | ninf, fin b => if 0 < b then ninf else if b < 0 then inf else nan
  | inf, inf => inf
  | ninf, ninf => inf
  | inf, ninf => ninf
  | ninf, inf => ninf
  | nan, _ => nan
  | _, nan => nan

/-- IEEE division (`x/0 = ±inf` for `x ≠ 0`, `0/0 = nan`, `±inf/±inf = nan`). -/
def RF.div : RF → RF → RF
  | fin a, fin b =>
    if b = 0 then (if 0 < a then inf else if a < 0 then ninf else nan)
    else fin (a / b)
  | fin _, inf => fin 0
  | fin _, ninf => fin 0
  | inf, fin b => if 0 ≤ b then inf else ninf
  | ninf, fin b => if 0 ≤ b then ninf else inf
  | inf, inf => nan
  | inf, ninf => nan
  | ninf, inf => nan
  | ninf, ninf => nan
  | nan, _ => nan
  | _, nan => nan

/-- IEEE `<=` (any comparison with `nan` is false). -/
def RF.le : RF → RF → Bool
  | nan, _ => false
  | _, nan => false
  | fin a, fin b => decide (a ≤ b)
  | ninf, _ => true
  | _, inf => true
  | inf, fin _ => false
  | inf, ninf => false
  | fin _, ninf => false

/-- Embedding of `np.maximum` (propagates `nan`, else the larger argument). -/
def RF.max : RF → RF → RF
  | nan, _ => nan
  | _, nan => nan
  | a, b => if RF.le a b then b else a

/-- Embedding of `np.trapz(y, x) = Σᵢ (x[i+1] - x[i]) · (y[i] + y[i+1]) / 2`, summed left
to right. -/
def trapzRF (y x : List RF) : RF :=
  ((x.tail.zip x).zip (y.tail.zip y)).foldl
    (fun acc p => RF.add acc (RF.mul (RF.sub p.1.1 p.1.2)
      (RF.div (RF.add p.2.1 p.2.2) (RF.fin 2)))) (RF.fin 0)

/-- The literal `1e-12` of `metrics.py` line 46. -/
def eps12 : RF := RF.fin (1 / 1000000000000)

/-- Embedding of `compute_tau_c` from the point where the coherence samples `C` have been
computed: zero out non-finite entries, clamp negatives to zero, return 0 on a
near-zero coherence integral or a non-finite ratio, else the trapezoidal
ratio. -/
def compute_tau_c (C times : List RF) : RF :=
  let C1 := C.map fun c => if c.isfinite then c else RF.fin 0
  let C2 := C1.map fun c => RF.max c (RF.fin 0)
  let den := trapzRF C2 times
  if RF.le den eps12 then RF.fin 0
  else
    let num := trapzRF (List.zipWith RF.mul times C2) times
    let tau := RF.div num den
    if tau.isfinite then tau else RF.fin 0

/-- Modelled from the spec: the one-pass clamp the spec describes — a
coherence value that is non-finite or negative is replaced by 0 before
integration. -/
def clampCoherenceSpec (c : RF) : RF :=
  if c.isfinite && RF.le (RF.fin 0) c then c else RF.fin 0

/-! ## `compute_resilience` (`qemd/metrics.py`, lines 84–101) -/

/-- Embedding of `compute_resilience(base_qhs, jitter_qhs_list)`: `1.0` outright for a
near-zero baseline; otherwise one minus the mean clamped fractional drop,
clipped to `[0, 1]` (`np.mean` of an empty list is bypassed: `drops` empty
gives `mean_drop = 0.0`). -/
def compute_resilience (base_qhs : ℚ) (jitter_qhs_list : List ℚ) : ℚ :=
  if base_qhs ≤ 1 / 1000000 then 1
  else
    let drops := jitter_qhs_list.map fun q =>
      max 0 ((base_qhs - q) / max base_qhs (1 / 1000000))
    let mean_drop := if drops.isEmpty then 0 else drops.sum / (drops.length : ℚ)
    clipQ (1 - mean_drop) 0 1

/-! ## Helper lemmas -/

@[simp] theorem CQ.conj_ofQ (q : ℚ) : CQ.conj (ofQ q) = ofQ q := by
  simp [CQ.conj, ofQ]

@[simp] theorem CQ.conj_zero : CQ.conj 0 = 0 := by
  show CQ.conj ⟨0, 0⟩ = ⟨0, 0⟩
  simp [CQ.conj]

theorem hamUpTo_zero (epsilon J : List ℚ) : hamUpTo epsilon J 0 = diagM epsilon := by
  unfold hamUpTo diagM
  ext i j <;> simp

/-- Splitting a `foldlM` over `Option` across a list append. -/
theorem optFoldlM_append {α β : Type} (f : β → α → Option β) (l₁ l₂ : List α) (b : β) :
    (l₁ ++ l₂).foldlM f b = (l₁.foldlM f b).bind fun b' => l₂.foldlM f b' := by
  induction l₁ generalizing b with
  | nil => simp [List.foldlM]
  | cons x xs ih =>
    simp only [List.cons_append, List.foldlM]
    cases h : f b x with
    | none => simp [Option.bind]
    | some b' => simp [Option.bind, ih]

theorem hamUpTo_entry_update (epsilon J : List ℚ) (k a b : ℕ) :
    (if a = k + 1 ∧ b = k then ofQ (J.getD k 0)
      else if a = k ∧ b = k + 1 then ofQ (J.getD k 0)
      else (hamUpTo epsilon J k).entry a b) =
    (hamUpTo epsilon J (k + 1)).entry a b := by
  by_cases h1 : a = k + 1 ∧ b = k
  · rw [if_pos h1]
    simp only [hamUpTo]
    rw [if_neg (by omega), if_pos ⟨by omega, by omega⟩, h1.2]
  · rw [if_neg h1]
    by_cases h2 : a = k ∧ b = k + 1
    · rw [if_pos h2]
      simp only [hamUpTo]
      rw [if_pos ⟨by omega, by omega⟩, h2.1]
    · rw [if_neg h2]
      simp only [hamUpTo]
      by_cases h3 : b = a + 1 ∧ a < k
      · rw [if_pos h3, if_pos ⟨h3.1, by omega⟩]
      · rw [if_neg h3]
        have h3' : ¬(b = a + 1 ∧ a < k + 1) := by
          rintro ⟨hb, hlt⟩
          rcases Nat.lt_succ_iff_lt_or_eq.mp hlt with h | h
          · exact h3 ⟨hb, h⟩
          · exact h2 ⟨h, by omega⟩
        rw [if_neg h3']
        by_cases h4 : a = b + 1 ∧ b < k
        · rw [if_pos h4, if_pos ⟨h4.1, by omega⟩]
        · rw [if_neg h4]
          have h4' : ¬(a = b + 1 ∧ b < k + 1) := by
            rintro ⟨ha, hlt⟩
            rcases Nat.lt_succ_iff_lt_or_eq.mp hlt with h | h
            · exact h4 ⟨ha, h⟩
            · exact h1 ⟨by omega, h⟩
          rw [if_neg h4']

theorem hamStep_eq (epsilon J : List ℚ) (k : ℕ) (hk : k + 1 ≤ epsilon.length - 1)
    (hJ : k < J.length) :
    hamStep J (hamUpTo epsilon J k) k = some (hamUpTo epsilon J (k + 1)) := by
  have hN : k + 1 < epsilon.length := by omega
  have hget : J.get? k = some (J.getD k 0) := by
    rw [List.getD_eq_getElem?_getD, List.getElem?_eq_getElem hJ]
    simp [List.get?_eq_getElem?, List.getElem?_eq_getElem hJ]
  have h1 : matSet (hamUpTo epsilon J k) k (k + 1) (ofQ (J.getD k 0)) =
      some (Mat.mk epsilon.length epsilon.length (fun a b =>
        if a = k ∧ b = k + 1 then ofQ (J.getD k 0)
        else (hamUpTo epsilon J k).entry a b)) := by
    unfold matSet
    have hc : k < (hamUpTo epsilon J k).rows ∧ k + 1 < (hamUpTo epsilon J k).cols :=
      ⟨by simp only [hamUpTo]; omega, by simp only [hamUpTo]; omega⟩
    rw [if_pos hc]
    simp only [hamUpTo]
  have h2 : matSet (Mat.mk epsilon.length epsilon.length (fun a b =>
        if a = k ∧ b = k + 1 then ofQ (J.getD k 0)
        else (hamUpTo epsilon J k).entry a b)) (k + 1) k (ofQ (J.getD k 0)) =
      some (Mat.mk epsilon.length epsilon.length (fun a b =>
        if a = k + 1 ∧ b = k then ofQ (J.getD k 0)
        else if a = k ∧ b = k + 1 then ofQ (J.getD k 0)
        else (hamUpTo epsilon J k).entry a b)) := by
    unfold matSet
    dsimp only
    rw [if_pos ⟨hN, by omega⟩]
  have hfun : (fun a b =>
        if a = k + 1 ∧ b = k then ofQ (J.getD k 0)
        else if a = k ∧ b = k + 1 then ofQ (J.getD k 0)
        else (hamUpTo epsilon J k).entry a b) = (hamUpTo epsilon J (k + 1)).entry :=
    funext fun a => funext fun b => hamUpTo_entry_update epsilon J k a b
  unfold hamStep
  rw [hget]
  show (matSet (hamUpTo epsilon J k) k (k + 1) (ofQ (J.getD k 0))).bind _ = _
  rw [h1]
  show matSet _ (k + 1) k (ofQ (J.getD k 0)) = _
  rw [h2, hfun]
  rfl

/-- The coupling loop after `k` iterations: succeeds with the closed form
exactly when the first `k` reads of `J` are in range, and raises `IndexError`
(`none`) otherwise. -/
theorem build_fold_eq (epsilon J : List ℚ) (k : ℕ) (hk : k ≤ epsilon.length - 1) :
    (List.range k).foldlM (hamStep J) (diagM epsilon) =
      if k ≤ J.length then some (hamUpTo epsilon J k) else none := by
  induction k with
  | zero => simp [List.foldlM, hamUpTo_zero]
  | succ n ih =>
    rw [List.range_succ, optFoldlM_append, ih (by omega)]
    by_cases hn : n ≤ J.length
    · rw [if_pos hn]
      show (List.foldlM (hamStep J) (hamUpTo epsilon J n) [n]) = _
      show (hamStep J (hamUpTo epsilon J n) n).bind _ = _
      by_cases hn' : n + 1 ≤ J.length
      · rw [hamStep_eq epsilon J n hk (by omega)]
        simp [List.foldlM, if_pos hn']
      · have hJn : J.get? n = none := by
          rw [List.get?_eq_getElem?, List.getElem?_eq_none]
          omega
        unfold hamStep
        rw [hJn]
        simp [Option.bind, if_neg hn']
    · rw [if_neg hn, if_neg (by omega)]
      rfl

/-- Evaluation of `build_hamiltonian` in closed form: `IndexError` when `J` is too short,
otherwise the tridiagonal matrix using the first `len(epsilon) - 1` couplings. -/
theorem build_hamiltonian_eq (epsilon J : List ℚ) :
    build_hamiltonian epsilon J =
      if epsilon.length - 1 ≤ J.length then
        some (hamUpTo epsilon J (epsilon.length - 1))
      else none := by
  unfold build_hamiltonian
  exact build_fold_eq epsilon J (epsilon.length - 1) le_rfl

/-! ## Claim C6 -/

/-- C6: for every real site-energy vector `epsilon` (length N) and real
coupling vector `J` (length N−1), `build_hamiltonian` returns a matrix equal
to its own conjugate transpose, whose entries more than one index from the
diagonal are zero, with diagonal `epsilon` and `H[i,i+1] = H[i+1,i] = J[i]`. -/
theorem build_hamiltonian_hermitian_tridiag (epsilon J : List ℚ)
    (hlen : J.length + 1 = epsilon.length) :
    ∃ H, build_hamiltonian epsilon J = some H ∧
      Mat.conjTranspose H = H ∧
      (∀ i j, i + 1 < j ∨ j + 1 < i → H.entry i j = 0) ∧
      (∀ i, i < epsilon.length → H.entry i i = ofQ (epsilon.getD i 0)) ∧
      (∀ i, i + 1 < epsilon.length →
        H.entry i (i + 1) = ofQ (J.getD i 0) ∧ H.entry (i + 1) i = ofQ (J.getD i 0)) := by
  refine ⟨hamUpTo epsilon J (epsilon.length - 1), ?_, ?_, ?_, ?_, ?_⟩
  · rw [build_hamiltonian_eq, if_pos (by omega)]
  · refine Mat.ext rfl rfl ?_
    funext a b
    show CQ.conj ((hamUpTo epsilon J (epsilon.length - 1)).entry b a) =
      (hamUpTo epsilon J (epsilon.length - 1)).entry a b
    simp only [hamUpTo]
    by_cases c1 : a = b + 1 ∧ b < epsilon.length - 1
    · conv_lhs => rw [if_pos c1]
      rw [CQ.conj_ofQ]
      conv_rhs => rw [if_neg (show ¬(b = a + 1 ∧ a < epsilon.length - 1) by omega),
        if_pos c1]
    · by_cases c2 : b = a + 1 ∧ a < epsilon.length - 1
      · conv_lhs => rw [if_neg c1, if_pos c2]
        rw [CQ.conj_ofQ]
        conv_rhs => rw [if_pos c2]
      · by_cases c3 : b = a
        · subst c3
          conv_lhs => rw [if_neg c1, if_neg c2, if_pos rfl]
          rw [CQ.conj_ofQ]
          conv_rhs => rw [if_neg c2, if_neg c1, if_pos rfl]
        · conv_lhs => rw [if_neg c1, if_neg c2, if_neg c3]
          rw [CQ.conj_zero]
          conv_rhs => rw [if_neg c2, if_neg c1,
            if_neg (show ¬a = b from fun h => c3 h.symm)]
  · intro i j hij
    simp only [hamUpTo]
    rw [if_neg (by omega), if_neg (by omega), if_neg (by omega)]
  · intro i hi
    simp only [hamUpTo]
    rw [if_neg (by omega), if_neg (by omega)]
    simp
  · intro i hi
    constructor
    · simp only [hamUpTo]
      rw [if_pos ⟨trivial, by omega⟩]
    · simp only [hamUpTo]
      rw [if_neg (by omega), if_pos ⟨trivial, by omega⟩]

/-- Witness for C6 at `epsilon = [1, 2]`, `J = [3]`. -/
theorem build_hamiltonian_hermitian_tridiag_witness :
    ∃ H, build_hamiltonian [1, 2] [3] = some H ∧
      Mat.conjTranspose H = H ∧
      (∀ i j, i + 1 < j ∨ j + 1 < i → H.entry i j = 0) ∧
      (∀ i, i < ([1, 2] : List ℚ).length → H.entry i i = ofQ (([1, 2] : List ℚ).getD i 0)) ∧
      (∀ i, i + 1 < ([1, 2] : List ℚ).length →
        H.entry i (i + 1) = ofQ (([3] : List ℚ).getD i 0) ∧
        H.entry (i + 1) i = ofQ (([3] : List ℚ).getD i 0)) :=
  build_hamiltonian_hermitian_tridiag [1, 2] [3] (by decide)

/-! ## Claim C1 -/

/-- C1 counterexample: with `epsilon = [0]` (one site) and `J = [1]`
(`len(J) = 1 ≠ 0 = len(epsilon) - 1`), `build_hamiltonian` silently ignores
the excess coupling and returns a matrix instead of rejecting the call. -/
theorem build_hamiltonian_no_validation :
    ([1] : List ℚ).length ≠ ([0] : List ℚ).length - 1 ∧
      (build_hamiltonian [0] [1]).isSome = true := by
  exact ⟨by decide, rfl⟩

/-- C1 amended: `build_hamiltonian` performs no explicit length validation.
When `len(J) < len(epsilon) - 1` the call fails (an `IndexError` reading
`J[i]`, modelled by `none`); when `len(J) ≥ len(epsilon) - 1` — in particular
when `J` is too long — it returns a matrix, silently ignoring the excess
couplings. -/
theorem build_hamiltonian_length_behavior :
    (∀ epsilon J : List ℚ, J.length + 1 < epsilon.length →
      build_hamiltonian epsilon J = none) ∧
    (∀ epsilon J : List ℚ, epsilon.length ≤ J.length + 1 →
      (build_hamiltonian epsilon J).isSome = true) := by
  constructor
  · intro epsilon J h
    rw [build_hamiltonian_eq, if_neg (by omega)]
  · intro epsilon J h
    rw [build_hamiltonian_eq, if_pos (by omega)]
    rfl

/-- Witness for C1's amended claim: a too-short `J` is rejected, a too-long
`J` yields a matrix. -/
theorem build_hamiltonian_length_behavior_witness :
    build_hamiltonian [0, 0, 0] [] = none ∧
      (build_hamiltonian [5] [7]).isSome = true :=
  ⟨build_hamiltonian_length_behavior.1 [0, 0, 0] [] (by decide),
    build_hamiltonian_length_behavior.2 [5] [7] (by decide)⟩

/-! ## Claim C2 -/

/-- C2 counterexample: with `num_sites = 2` and all rates `1 ≥ 0`,
`build_lindblad_ops` does not return a list of `2N = 4` operators with the
sink at site `N - 1 = 1`: it raises an `IndexError` (`none`), because the sink
operator is written at the module constant `SINK_INDEX = 6`, which is out of
bounds for a 2×2 array. -/
theorem build_lindblad_ops_sink_counterexample :
    build_lindblad_ops id 2 1 1 1 = none := rfl

/-- C2 amended: the sink index is the module constant `SINK_INDEX = 6`
(`NUM_ETC_SITES - 1`), not `num_sites - 1`; the claimed ordered 2N-operator
structure holds for `num_sites = NUM_ETC_SITES = 7`, where the two coincide:
N dephasing operators `√γ·|i⟩⟨i|`, then N−1 loss operators `√k_loss·|i⟩⟨i|`
for every site except the sink, then one sink operator `√k_sink·|6⟩⟨6|`.
(For `num_sites < 7` the call fails with an index error; for `num_sites > 7`
the sink is not the last site.) -/
theorem build_lindblad_ops_structure (sq : ℚ → ℚ) (gamma k_sink k_loss : ℚ)
    (hg : 0 ≤ gamma) (hs : 0 ≤ k_sink) (hl : 0 ≤ k_loss) :
    ∃ L, build_lindblad_ops sq NUM_ETC_SITES gamma k_sink k_loss = some L ∧
      L.length = 2 * NUM_ETC_SITES ∧
      (∀ i, i < 7 → L.get? i = some (Mat.smul (ofQ (sq gamma)) (projMat 7 i))) ∧
      (∀ i, i < 6 → L.get? (7 + i) = some (Mat.smul (ofQ (sq k_loss)) (projMat 7 i))) ∧
      L.get? 13 = some (Mat.smul (ofQ (sq k_sink)) (projMat 7 6)) := by
  refine ⟨(List.range 7).map (fun i => Mat.smul (ofQ (sq gamma)) (projMat 7 i)) ++
    (List.range 6).map (fun i => Mat.smul (ofQ (sq k_loss)) (projMat 7 i)) ++
    [Mat.smul (ofQ (sq k_sink)) (projMat 7 6)], rfl, rfl, ?_, ?_, rfl⟩
  · intro i hi
    interval_cases i <;> rfl
  · intro i hi
    interval_cases i <;> rfl

/-- Witness for C2's amended claim at `sq = id` and zero rates. -/
theorem build_lindblad_ops_structure_witness :
    ∃ L, build_lindblad_ops id NUM_ETC_SITES 0 0 0 = some L ∧
      L.length = 2 * NUM_ETC_SITES ∧
      (∀ i, i < 7 → L.get? i = some (Mat.smul (ofQ (id 0)) (projMat 7 i))) ∧
      (∀ i, i < 6 → L.get? (7 + i) = some (Mat.smul (ofQ (id 0)) (projMat 7 i))) ∧
      L.get? 13 = some (Mat.smul (ofQ (id 0)) (projMat 7 6)) :=
  build_lindblad_ops_structure id 0 0 0 le_rfl le_rfl le_rfl

/-! ## Claims C3 and C5: `compute_ete` -/

theorem CQ.re_zero : (0 : CQ).re = 0 := rfl

theorem CQ.re_one : (1 : CQ).re = 1 := rfl

/-- The accumulation loop of `compute_ete` as a sum over the trajectory. -/
theorem ete_foldl_eq_sum (s : ℕ) (k dt : ℚ) (l : List Mat) (a : ℚ) :
    l.foldl (fun ete rho => ete + k * (rho.entry s s).re * dt) a =
      a + (l.map fun rho => k * (rho.entry s s).re * dt).sum := by
  induction l generalizing a with
  | nil => simp
  | cons x xs ih => simp [ih, add_assoc]

/-- Evaluation of `compute_ete` in closed form: the clipped product of `k_sink` with the
population-sum of the whole trajectory. -/
theorem compute_ete_eq (rho_t_series : List Mat) (sink_index : ℕ) (k_sink dt : ℚ) :
    compute_ete rho_t_series sink_index k_sink dt =
      clipQ (k_sink * (rho_t_series.map
        (fun rho => (rho.entry sink_index sink_index).re * dt)).sum) 0 1 := by
  unfold compute_ete
  rw [ete_foldl_eq_sum, zero_add]
  congr 1
  rw [← List.sum_map_mul_left]
  have hf : (fun rho : Mat => k_sink * (rho.entry sink_index sink_index).re * dt) =
      (fun rho : Mat => k_sink * ((rho.entry sink_index sink_index).re * dt)) := by
    funext rho
    ring
  rw [hf]

theorem clipQ_le_one (x : ℚ) : clipQ x 0 1 ≤ 1 := min_le_right _ _

theorem clipQ_of_nonpos {x : ℚ} (h : x ≤ 0) : clipQ x 0 1 = 0 := by
  unfold clipQ
  rw [max_eq_right h]
  exact min_eq_left (by norm_num)

theorem clipQ_of_one_le {x : ℚ} (h : 1 ≤ x) : clipQ x 0 1 = 1 := by
  unfold clipQ
  rw [max_eq_left (le_trans (by norm_num) h)]
  exact min_eq_right h

theorem clipQ_of_mem {x : ℚ} (h0 : 0 ≤ x) (h1 : x ≤ 1) : clipQ x 0 1 = x := by
  unfold clipQ
  rw [max_eq_left h0]
  exact min_eq_left h1

theorem clipQ_mono {x y : ℚ} (h : x ≤ y) : clipQ x 0 1 ≤ clipQ y 0 1 :=
  min_le_min (max_le_max h le_rfl) le_rfl

/-- C3 counterexample: on the two-sample trajectory `[0-matrix, |0⟩⟨0|]` with
`k_sink = 1`, `dt = 1/2`, `compute_ete` gives `1/2` (it also counts the final
sample), while the claimed left-Riemann sum that excludes the sample at the
final time gives `0`. -/
theorem compute_ete_counts_final_sample :
    compute_ete [zerosM 1 1, projMat 1 0] 0 1 (1 / 2) ≠
      ete_left_riemann_spec [zerosM 1 1, projMat 1 0] 0 1 (1 / 2) := by
  have h1 : compute_ete [zerosM 1 1, projMat 1 0] 0 1 (1 / 2) = 1 / 2 := by
    rw [compute_ete_eq]
    have hsum : (([zerosM 1 1, projMat 1 0]).map
        (fun rho => (rho.entry 0 0).re * (1 / 2 : ℚ))).sum = 1 / 2 := by
      simp [zerosM, projMat, CQ.re_zero, CQ.re_one]
    rw [hsum]
    rw [one_mul]
    exact clipQ_of_mem (by norm_num) (by norm_num)
  have h2 : ete_left_riemann_spec [zerosM 1 1, projMat 1 0] 0 1 (1 / 2) = 0 := by
    unfold ete_left_riemann_spec
    have : ([zerosM 1 1, projMat 1 0] : List Mat).dropLast = [zerosM 1 1] := rfl
    rw [this]
    have hsum : (([zerosM 1 1] : List Mat).map
        (fun rho => 1 * (rho.entry 0 0).re * (1 / 2 : ℚ))).sum = 0 := by
      simp [zerosM, CQ.re_zero]
    rw [hsum]
    exact clipQ_of_mem le_rfl (by norm_num)
  rw [h1, h2]
  norm_num

/-- C3 amended: `compute_ete` equals
`clip(Σ_t k_sink · Re(ρ_t[sink,sink]) · dt, 0, 1)` where the sum ranges over
EVERY sample of the trajectory, including the one at the final time (a
Riemann sum over the whole sampled grid, not the claimed left-Riemann sum
that drops the final sample). -/
theorem compute_ete_formula (rho_t_series : List Mat) (sink_index : ℕ)
    (k_sink dt : ℚ) :
    compute_ete rho_t_series sink_index k_sink dt =
      clipQ ((rho_t_series.map
        (fun rho => k_sink * (rho.entry sink_index sink_index).re * dt)).sum) 0 1 := by
  unfold compute_ete
  rw [ete_foldl_eq_sum, zero_add]

/-- C5: holding the trajectory, sink index and `dt` fixed, `compute_ete` is
monotonically non-decreasing in `k_sink ≥ 0`; it saturates at `1.0` (it never
exceeds 1, and once `k_sink` is large enough against a positive population
integral it equals 1 exactly); and at `k_sink = 0` it returns 0 for every
trajectory. -/
theorem compute_ete_monotone_saturating :
    (∀ (traj : List Mat) (s : ℕ) (dt k1 k2 : ℚ), 0 ≤ k1 → k1 ≤ k2 →
      compute_ete traj s k1 dt ≤ compute_ete traj s k2 dt) ∧
    (∀ (traj : List Mat) (s : ℕ) (k dt : ℚ), compute_ete traj s k dt ≤ 1) ∧
    (∀ (traj : List Mat) (s : ℕ) (dt k : ℚ),
      0 < (traj.map (fun rho => (rho.entry s s).re * dt)).sum →
      1 / (traj.map (fun rho => (rho.entry s s).re * dt)).sum ≤ k →
      compute_ete traj s k dt = 1) ∧
    (∀ (traj : List Mat) (s : ℕ) (dt : ℚ), compute_ete traj s 0 dt = 0) := by
  refine ⟨?_, ?_, ?_, ?_⟩
  · intro traj s dt k1 k2 h0 h12
    rw [compute_ete_eq, compute_ete_eq]
    rcases le_or_lt 0 ((traj.map (fun rho => (rho.entry s s).re * dt)).sum) with hS | hS
    · exact clipQ_mono (mul_le_mul_of_nonneg_right h12 hS)
    · rw [clipQ_of_nonpos (mul_nonpos_of_nonneg_of_nonpos h0 hS.le),
        clipQ_of_nonpos (mul_nonpos_of_nonneg_of_nonpos (le_trans h0 h12) hS.le)]
  · intro traj s k dt
    rw [compute_ete_eq]
    exact clipQ_le_one _
  · intro traj s dt k hS hk
    rw [compute_ete_eq]
    apply clipQ_of_one_le
    calc (1 : ℚ) = (1 / (traj.map (fun rho => (rho.entry s s).re * dt)).sum) *
        (traj.map (fun rho => (rho.entry s s).re * dt)).sum := by
          rw [one_div, inv_mul_cancel₀ hS.ne']
      _ ≤ k * (traj.map (fun rho => (rho.entry s s).re * dt)).sum :=
          mul_le_mul_of_nonneg_right hk hS.le
  · intro traj s dt
    rw [compute_ete_eq, zero_mul]
    exact clipQ_of_mem le_rfl (by norm_num)

/-- Witness for C5 on a concrete one-sample trajectory. -/
theorem compute_ete_monotone_saturating_witness :
    compute_ete [projMat 1 0] 0 (1 / 2) 1 ≤ compute_ete [projMat 1 0] 0 2 1 ∧
      compute_ete [projMat 1 0] 0 2 1 = 1 ∧
      compute_ete [projMat 1 0] 0 0 1 = 0 := by
  have hsum : (([projMat 1 0] : List Mat).map
      (fun rho => (rho.entry 0 0).re * (1 : ℚ))).sum = 1 := by
    simp [projMat, CQ.re_one]
  refine ⟨compute_ete_monotone_saturating.1 [projMat 1 0] 0 1 (1 / 2) 2 (by norm_num)
      (by norm_num),
    compute_ete_monotone_saturating.2.2.1 [projMat 1 0] 0 1 2 ?_ ?_,
    compute_ete_monotone_saturating.2.2.2 [projMat 1 0] 0 1⟩
  · rw [hsum]
    norm_num
  · rw [hsum]
    norm_num

/-! ## Claim C7: `compute_tau_c` -/

/-- The two-pass clamp of `compute_tau_c` (zero non-finite values, then
`np.maximum` with 0) coincides pointwise with the spec's one-pass description
(non-finite or negative values replaced by 0). -/
theorem clamp_two_pass (c : RF) :
    RF.max (if c.isfinite then c else RF.fin 0) (RF.fin 0) = clampCoherenceSpec c := by
  cases c with
  | fin q =>
    simp only [RF.max, RF.isfinite, clampCoherenceSpec, RF.le, if_true, Bool.true_and]
    by_cases h : q ≤ 0
    · by_cases h2 : (0 : ℚ) ≤ q
      · have hq : q = 0 := le_antisymm h h2
        subst hq
        simp
      · simp [h, h2]
    · have h2 : (0 : ℚ) ≤ q := le_of_lt (lt_of_not_le h)
      simp [h, h2]
  | inf => rfl
  | ninf => rfl
  | nan => rfl

theorem tau_clamp_eq (C : List RF) :
    (C.map fun c => if c.isfinite then c else RF.fin 0).map
        (fun c => RF.max c (RF.fin 0)) = C.map clampCoherenceSpec := by
  rw [List.map_map]
  have hfg : ((fun c => RF.max c (RF.fin 0)) ∘
      fun c => if c.isfinite then c else RF.fin 0) = clampCoherenceSpec := by
    funext c
    exact clamp_two_pass c
  rw [hfg]

/-- C7: in `compute_tau_c`, non-finite and negative coherence values are
replaced by 0 before integration (the integrals below are taken over the
clamped array); the function returns exactly `0.0` when the trapezoidal
coherence integral is `≤ 1e-12` or when the ratio `num/den` is non-finite,
and otherwise returns the trapezoidal ratio itself. -/
theorem compute_tau_c_guards (C times : List RF) :
    (RF.le (trapzRF (C.map clampCoherenceSpec) times) eps12 = true →
      compute_tau_c C times = RF.fin 0) ∧
    (RF.le (trapzRF (C.map clampCoherenceSpec) times) eps12 = false →
      (RF.div (trapzRF (List.zipWith RF.mul times (C.map clampCoherenceSpec)) times)
        (trapzRF (C.map clampCoherenceSpec) times)).isfinite = false →
      compute_tau_c C times = RF.fin 0) ∧
    (RF.le (trapzRF (C.map clampCoherenceSpec) times) eps12 = false →
      (RF.div (trapzRF (List.zipWith RF.mul times (C.map clampCoherenceSpec)) times)
        (trapzRF (C.map clampCoherenceSpec) times)).isfinite = true →
      compute_tau_c C times =
        RF.div (trapzRF (List.zipWith RF.mul times (C.map clampCoherenceSpec)) times)
          (trapzRF (C.map clampCoherenceSpec) times)) := by
  have hc := tau_clamp_eq C
  simp only [compute_tau_c]
  rw [hc]
  refine ⟨fun h => ?_, fun h1 h2 => ?_, fun h1 h2 => ?_⟩
  · rw [if_pos h]
  · rw [if_neg (by simp [h1]), if_neg (by simp [h2])]
  · rw [if_neg (by simp [h1]), if_pos h2]

/-- Witness for C7: the empty trajectory has coherence integral 0 ≤ 1e-12, so
`compute_tau_c` returns exactly 0. -/
theorem compute_tau_c_guards_witness : compute_tau_c [] [] = RF.fin 0 := by
  apply (compute_tau_c_guards [] []).1
  show RF.le (RF.fin 0) eps12 = true
  simp only [RF.le, eps12, decide_eq_true_eq]
  norm_num

/-! ## Claims C8 and C10: `compute_resilience` -/

/-- C8: `compute_resilience` returns exactly `1.0` whenever
`base_score ≤ 1e-6`, regardless of the perturbed list; otherwise (for a
nonempty perturbed list, over which the mean is defined) it returns
`clip(1 − mean_q max(0, (base − q)/max(base, 1e-6)), 0, 1)`. -/
theorem compute_resilience_formula (base : ℚ) (qs : List ℚ) :
    (base ≤ 1 / 1000000 → compute_resilience base qs = 1) ∧
    (1 / 1000000 < base → qs ≠ [] →
      compute_resilience base qs =
        clipQ (1 - (qs.map fun q =>
          max 0 ((base - q) / max base (1 / 1000000))).sum / (qs.length : ℚ)) 0 1) := by
  constructor
  · intro h
    unfold compute_resilience
    rw [if_pos h]
  · intro h hne
    unfold compute_resilience
    rw [if_neg (not_le.mpr h)]
    have hempty : (qs.map fun q =>
        max 0 ((base - q) / max base (1 / 1000000))).isEmpty = false := by
      simp [List.isEmpty_iff, hne]
    simp only [hempty, Bool.false_eq_true, if_false, List.length_map]

/-- Witness for C8: both branches at concrete inputs. -/
theorem compute_resilience_formula_witness :
    compute_resilience 0 [5] = 1 ∧
      compute_resilience 1 [1 / 2] =
        clipQ (1 - (([1 / 2] : List ℚ).map fun q =>
          max 0 ((1 - q) / max 1 (1 / 1000000))).sum / (([1 / 2] : List ℚ).length : ℚ)) 0 1 :=
  ⟨(compute_resilience_formula 0 [5]).1 (by norm_num),
    (compute_resilience_formula 1 [1 / 2]).2 (by norm_num) (by simp)⟩

/-- C10: for every `base_score > 1e-6`, `compute_resilience` on an empty
perturbed list returns exactly `1.0` (the empty mean is defined as `0.0`
rather than raising or propagating NaN). -/
theorem compute_resilience_empty (base : ℚ) (h : 1 / 1000000 < base) :
    compute_resilience base [] = 1 := by
  unfold compute_resilience
  rw [if_neg (not_le.mpr h)]
  simp only [List.map_nil, List.isEmpty_nil, if_true, sub_zero]
  exact clipQ_of_mem (by norm_num) le_rfl

/-- Witness for C10 at `base_score = 1`. -/
theorem compute_resilience_empty_witness : compute_resilience 1 [] = 1 :=
  compute_resilience_empty 1 (by norm_num)

/-! ## Claims C4 and C9: `time_evolve` -/

/-- The evolution loop appends one trajectory cell per remaining grid point. -/
theorem evolveLoop_ids_length (U : Mat) (f : Mat → Bool) (g : Mat → Mat) (N : ℕ)
    (ts : List ℚ) : ∀ (h : Heap) (cur : ℕ),
    ((evolveLoop U f g N ts h cur).2.2).length = ts.length := by
  induction ts with
  | nil => intro h cur; rfl
  | cons t ts ih =>
    intro h cur
    simp only [evolveLoop]
    rw [List.length_cons, ih]
    rfl

/-- The evolution loop only ever appends to the heap: existing cells are
untouched. -/
theorem evolveLoop_extends (U : Mat) (f : Mat → Bool) (g : Mat → Mat) (N : ℕ)
    (ts : List ℚ) : ∀ (h : Heap) (cur : ℕ),
    ∃ ext, (evolveLoop U f g N ts h cur).1 = h ++ ext := by
  induction ts with
  | nil =>
    intro h cur
    exact ⟨[], by simp [evolveLoop]⟩
  | cons t ts ih =>
    intro h cur
    have key : ∀ (h' : Heap) (cur' : ℕ) (e0 : Heap), h' = h ++ e0 →
        ∃ ext, (evolveLoop U f g N ts h' cur').1 = h ++ ext := by
      intro h' cur' e0 he
      obtain ⟨ext, hext⟩ := ih h' cur'
      exact ⟨e0 ++ ext, by rw [hext, he, List.append_assoc]⟩
    simp only [evolveLoop, alloc]
    by_cases hf : f (matMul U (h.getD cur matDefault))
    · rw [if_pos hf]
      exact key _ _ _ (List.append_assoc h _ _)
    · rw [if_neg hf]
      exact key _ _ _ ((List.append_assoc _ _ _).trans (List.append_assoc h _ _))

/-- The returned time grid is `np.arange(0, T_end + dt, dt)`. -/
theorem time_evolve_times (expm : Mat → Mat) (isFin : Mat → Bool) (n2n : Mat → Mat)
    (h0 : Heap) (r0 : ℕ) (H : Mat) (L_ops : List Mat) (T_end dt : ℚ) :
    (time_evolve expm isFin n2n h0 r0 H L_ops T_end dt).2.2 =
      arangeQ 0 (T_end + dt) dt := rfl

/-- Length of `np.arange(0, T_end + dt, dt)` when `dt` divides `T_end`. -/
theorem arangeLen_div (T_end dt : ℚ) (k : ℕ) (hdt : 0 < dt) (hk : T_end = k * dt) :
    arangeLen 0 (T_end + dt) dt = k + 1 := by
  unfold arangeLen
  rw [sub_zero, hk]
  have hq : ((k : ℚ) * dt + dt) / dt = (k : ℚ) + 1 := by
    field_simp
    ring
  rw [hq, show ((k : ℚ) + 1) = ((k + 1 : ℕ) : ℚ) by push_cast; ring, Int.ceil_natCast,
    Int.toNat_natCast]

/-- C4 counterexample: with `T_end = 1/2` and `dt = 1/5` (so `dt` does not
divide `T_end`), the grid returned by `time_evolve` has 4 entries, not
`⌊T_end/dt⌋ + 1 = 3`, and its last point `3/5` overshoots `T_end = 1/2`, so
the grid does not run "from 0 to T_end inclusive". -/
theorem time_evolve_grid_counterexample :
    ((time_evolve id (fun _ => true) id [] 0 matDefault [] (1 / 2) (1 / 5)).2.2).length ≠
        (⌊(1 / 2 : ℚ) / (1 / 5)⌋).toNat + 1 ∧
      ((time_evolve id (fun _ => true) id [] 0 matDefault [] (1 / 2) (1 / 5)).2.2).getLast? ≠
        some ((1 / 2 : ℚ)) := by
  rw [time_evolve_times]
  have hlen : arangeLen 0 ((1 / 2 : ℚ) + 1 / 5) (1 / 5) = 4 := by
    unfold arangeLen
    rw [show ((1 / 2 : ℚ) + 1 / 5 - 0) / (1 / 5) = 7 / 2 by norm_num]
    rw [show ⌈(7 / 2 : ℚ)⌉ = 4 from by
      rw [Int.ceil_eq_iff]
      constructor <;> norm_num]
    rfl
  have hfloor : (⌊(1 / 2 : ℚ) / (1 / 5)⌋).toNat = 2 := by
    rw [show ((1 / 2 : ℚ) / (1 / 5)) = 5 / 2 by norm_num]
    rw [show ⌊(5 / 2 : ℚ)⌋ = 2 from by
      rw [Int.floor_eq_iff]
      constructor <;> norm_num]
    rfl
  constructor
  · rw [hfloor]
    unfold arangeQ
    rw [List.length_map, List.length_range, hlen]
    norm_num
  · unfold arangeQ
    rw [hlen]
    rw [show List.range 4 = [0, 1, 2, 3] from rfl]
    simp only [List.map_cons, List.map_nil, List.getLast?_cons_cons,
      List.getLast?_singleton]
    intro hcontra
    rw [Option.some_inj] at hcontra
    norm_num at hcontra

/-- C4 amended: the grid of `time_evolve` is `np.arange(0, T_end + dt, dt)`.
The trajectory always has exactly as many entries as the grid (for
`T_end, dt > 0`).  When `dt` divides `T_end` exactly — in particular for the
configured `T_end = 500.0`, `dt = 0.05` — the grid is the uniform grid
`0, dt, …, T_end` inclusive with `⌊T_end/dt⌋ + 1` entries; otherwise it has
one extra point beyond `T_end` (see the counterexample). -/
theorem time_evolve_time_grid (expm : Mat → Mat) (isFin : Mat → Bool) (n2n : Mat → Mat)
    (h0 : Heap) (r0 : ℕ) (H : Mat) (L_ops : List Mat) (T_end dt : ℚ)
    (hdt : 0 < dt) (hT : 0 < T_end) :
    ((time_evolve expm isFin n2n h0 r0 H L_ops T_end dt).2.1.length =
      (time_evolve expm isFin n2n h0 r0 H L_ops T_end dt).2.2.length) ∧
    (∀ k : ℕ, T_end = k * dt →
      (time_evolve expm isFin n2n h0 r0 H L_ops T_end dt).2.2 =
        (List.range ((⌊T_end / dt⌋).toNat + 1)).map (fun n : ℕ => (n : ℚ) * dt) ∧
      (time_evolve expm isFin n2n h0 r0 H L_ops T_end dt).2.2.length =
        (⌊T_end / dt⌋).toNat + 1 ∧
      (time_evolve expm isFin n2n h0 r0 H L_ops T_end dt).2.2.getLast? = some T_end) := by
  have htimes := time_evolve_times expm isFin n2n h0 r0 H L_ops T_end dt
  have hpos : 0 < arangeLen 0 (T_end + dt) dt := by
    unfold arangeLen
    have : (0 : ℚ) < (T_end + dt - 0) / dt := by
      apply div_pos (by linarith) hdt
    have hceil : 0 < ⌈(T_end + dt - 0) / dt⌉ := Int.ceil_pos.mpr this
    omega
  constructor
  · show ((time_evolve expm isFin n2n h0 r0 H L_ops T_end dt).2.1).length = _
    simp only [time_evolve, alloc]
    rw [List.length_cons, evolveLoop_ids_length]
    rw [List.length_tail]
    unfold arangeQ
    rw [List.length_map, List.length_range]
    omega
  · intro k hk
    have hfloor : (⌊T_end / dt⌋).toNat = k := by
      rw [hk, mul_div_cancel_right₀ _ hdt.ne', Int.floor_natCast, Int.toNat_natCast]
    have hgrid : (time_evolve expm isFin n2n h0 r0 H L_ops T_end dt).2.2 =
        (List.range (k + 1)).map (fun n : ℕ => (n : ℚ) * dt) := by
      rw [htimes]
      unfold arangeQ
      rw [arangeLen_div T_end dt k hdt hk]
      simp [zero_add]
    refine ⟨by rw [hgrid, hfloor], by rw [hgrid, hfloor, List.length_map, List.length_range], ?_⟩
    rw [hgrid, List.range_succ, List.map_append, List.map_singleton,
      List.getLast?_concat]
    rw [hk]

/-- Witness for C4's amended claim at `T_end = 1`, `dt = 1/2` (`k = 2`). -/
theorem time_evolve_time_grid_witness :
    ((time_evolve id (fun _ => true) id [] 0 matDefault [] 1 (1 / 2)).2.1.length =
      (time_evolve id (fun _ => true) id [] 0 matDefault [] 1 (1 / 2)).2.2.length) ∧
    ((time_evolve id (fun _ => true) id [] 0 matDefault [] 1 (1 / 2)).2.2 =
      (List.range ((⌊(1 : ℚ) / (1 / 2)⌋).toNat + 1)).map (fun n : ℕ => (n : ℚ) * (1 / 2))) ∧
    ((time_evolve id (fun _ => true) id [] 0 matDefault [] 1 (1 / 2)).2.2.getLast? =
      some (1 : ℚ)) := by
  have h := time_evolve_time_grid id (fun _ => true) id [] 0 matDefault [] 1 (1 / 2)
    (by norm_num) (by norm_num)
  exact ⟨h.1, (h.2 2 (by norm_num)).1, (h.2 2 (by norm_num)).2.2⟩

/-- Heap cells present before the evolution loop are unchanged by it. -/
theorem heapGet_after_loop (U : Mat) (f : Mat → Bool) (g : Mat → Mat) (N : ℕ)
    (ts : List ℚ) (h : Heap) (cur i : ℕ) (hi : i < h.length) :
    (evolveLoop U f g N ts h cur).1.get? i = h.get? i := by
  obtain ⟨ext, hext⟩ := evolveLoop_extends U f g N ts h cur
  rw [hext, List.get?_append hi]

/-- C9: `time_evolve` never mutates its input density matrix: after the call,
the heap cell of `rho0` holds exactly the value it held before — for EVERY
choice of the float-only parameters `expm`, `isFin`, `n2n`, in particular for
those under which the blow-up guard fires at every step — and the first
element of the returned trajectory is a fresh cell (distinct from `rho0`'s)
holding an equal copy of `rho0`. -/
theorem time_evolve_preserves_rho0 (expm : Mat → Mat) (isFin : Mat → Bool)
    (n2n : Mat → Mat) (h0 : Heap) (r0 : ℕ) (H : Mat) (L_ops : List Mat)
    (T_end dt : ℚ) (hr : r0 < h0.length) :
    (time_evolve expm isFin n2n h0 r0 H L_ops T_end dt).1.get? r0 = h0.get? r0 ∧
    ∃ c, (time_evolve expm isFin n2n h0 r0 H L_ops T_end dt).2.1.head? = some c ∧
      c ≠ r0 ∧
      (time_evolve expm isFin n2n h0 r0 H L_ops T_end dt).1.get? c = h0.get? r0 := by
  have hrho0 : h0.get? r0 = some (h0.getD r0 matDefault) := by
    rw [List.get?_eq_getElem?, List.getElem?_eq_getElem hr,
      List.getD_eq_getElem?_getD, List.getElem?_eq_getElem hr]
    rfl
  simp only [time_evolve, alloc]
  constructor
  · refine (heapGet_after_loop _ _ _ _ _ _ _ r0 ?_).trans ?_
    · simp only [List.length_append, List.length_singleton]
      omega
    · rw [List.append_assoc]
      exact List.get?_append hr
  · refine ⟨(h0 ++ [Mat.flatten (h0.getD r0 matDefault)]).length, ?_, ?_, ?_⟩
    · rfl
    · simp only [List.length_append, List.length_singleton]
      omega
    · refine (heapGet_after_loop _ _ _ _ _ _ _ _ ?_).trans ?_
      · simp only [List.length_append, List.length_singleton]
        omega
      · rw [List.get?_concat_length, hrho0]
        rfl

/-- Witness for C9 with a one-cell heap and a guard that fires at every step
(`isFin` constantly false). -/
theorem time_evolve_preserves_rho0_witness :
    (time_evolve id (fun _ => false) id [zerosM 1 1] 0 (zerosM 1 1) [] 1 1).1.get? 0 =
      [zerosM 1 1].get? 0 ∧
    ∃ c, (time_evolve id (fun _ => false) id [zerosM 1 1] 0 (zerosM 1 1) [] 1 1).2.1.head? =
        some c ∧ c ≠ 0 ∧
      (time_evolve id (fun _ => false) id [zerosM 1 1] 0 (zerosM 1 1) [] 1 1).1.get? c =
        [zerosM 1 1].get? 0 :=
  time_evolve_preserves_rho0 id (fun _ => false) id [zerosM 1 1] 0 (zerosM 1 1) [] 1 1
    (by simp)
